import Mathlib

/-!
# Verification of the `wrappergen` generator against its specification

This file is a shallow embedding of the Go sources of the `wrappergen`
repository (`main.go`, `stringset.go` and the combination-generator file) into
Lean 4, together with theorems settling the specification claims about:

* the subset enumerator `CombGen` / `NCombs`;
* the impls emitter (`printImpls*` family) and its `excludes`-set deduplication;
* the type printer `typeToStr` and the import analysis
  (`analyzeResolvedTypeForImports`, `analyzeEmbeddedTypes`);
* parameter-name generation (`generateName`, `parametersFull.String`);
* the constructor emitter (`printNewFunc`);
* the imports section (`printImports`);
* input validation (`isValidFunctionName`, `parsedInput.parseInput`);
* the top-level error reporting (`main`, `parseFlagsAndEnvironment`).

Go slices, maps and loops are modeled as follows: a possibly-`nil` slice is an
`Option (List _)`; a `map` used as a set is a duplicate-free `List`;
an unbounded `for` loop is modeled by structural recursion on an explicit
counter (fuel) with adequacy theorems showing the fuel suffices.
-/

namespace Wrappergen

/-! ## `StringSet` (stringset.go)

Go's `StringSet` is `map[string]struct{}`.  We model it as a list of strings
holding no duplicates by construction (`Add` inserts only absent elements);
the program only ever queries membership, so the list order is irrelevant to
every modeled observation. -/

abbrev StringSet := List String

def StringSet.Has (s : StringSet) (str : String) : Bool :=
  s.contains str

def StringSet.Add (s : StringSet) (str : String) : StringSet :=
  if s.contains str then s else str :: s

def StringSet.AddSet (s : StringSet) (other : StringSet) : StringSet :=
  other.foldl StringSet.Add s

/-! ## `CombGen` — the subset enumerator

From the combination-generator source file:

```go
type CombGen struct { n int; idxs []int }
func NewCombGen(n int) *CombGen { return &CombGen{n: n, idxs: nil} }
func NCombs(n int) uint64 { return (uint64)(1) << n }
func (g *CombGen) Next() bool { ... }
func (g *CombGen) Get() []int { return g.idxs }
```

`n` is contractually non-negative, and every value the algorithm ever stores
in `idxs` is non-negative, so indices are `Nat`.  The `nil` slice is `none`. -/

structure CombGen where
  n : Nat
  idxs : Option (List Nat)

def NewCombGen (n : Nat) : CombGen := ⟨n, none⟩

/-- `NCombs` computes `(uint64)(1) << n`; a Go shift of a `uint64` by `n ≥ 64`
yields `0`, hence the explicit `% 2 ^ 64`. -/
def NCombs (n : Nat) : Nat := (1 <<< n) % 2 ^ 64

/-- The inner loop of `CombGen.Next`:

```go
i := len(g.idxs) - 1
l := g.n - 1
for i >= 0 {
    if g.idxs[i] < l {
        g.idxs[i]++
        for i2 := i + 1; i2 < len(g.idxs); i2++ {
            inc := i2 - i
            g.idxs[i2] = g.idxs[i] + inc
        }
        return true
    }
    i--
    l--
}
```

The scan visits positions `i = len-1, …, 0` with limit `l = n - len + i`
(both `int` in Go); the guard `idxs[i] < l` is rendered over `Nat` as
`idxs[i] + len < n + i`, which agrees with the Go comparison also when
`n - len + i` would be negative.  The argument of `advanceStep` is the number
of positions still to try, so the position under scrutiny at `i + 1` is `i`.
On success the updated slice is the prefix below `i` followed by the
consecutive run `idxs[i]+1, idxs[i]+2, …` filling positions `i, …, len-1`. -/
def advanceStep (n : Nat) (idxs : List Nat) : Nat → Option (List Nat)
  | 0 => none
  | i + 1 =>
    if idxs.getD i 0 + idxs.length < n + i then
      some (idxs.take i ++ List.range' (idxs.getD i 0 + 1) (idxs.length - i))
    else
      advanceStep n idxs i

/-- `CombGen.Next`.  The leading Go guard `len(g.idxs) > g.n` is vacuous in
the `nil` state (`len(nil) = 0` and `n ≥ 0`), so the `none` branch goes
straight to the `g.idxs == nil` test.  After a failed advance the code appends
`0`, fails if the slice now exceeds `n`, and otherwise rewrites it to
`0, 1, …, len-1`. -/
def CombGen.next : CombGen → Bool × CombGen
  | ⟨n, none⟩ => (true, ⟨n, some []⟩)
  | ⟨n, some idxs⟩ =>
    if idxs.length > n then (false, ⟨n, some idxs⟩)
    else
      match advanceStep n idxs idxs.length with
      | some idxs' => (true, ⟨n, some idxs'⟩)
      | none =>
        let grown := idxs ++ [0]
        if grown.length > n then (false, ⟨n, some grown⟩)
        else (true, ⟨n, some (List.range grown.length)⟩)

def CombGen.Get : CombGen → List Nat
  | ⟨_, none⟩ => []
  | ⟨_, some idxs⟩ => idxs

/-- The consumption pattern of every emitter section:
`for comb.Next() { use comb.Get() }`, collecting the successive `Get` views.
`fuel` bounds the number of loop iterations; the theorems show any
`fuel ≥ 2 ^ n` yields the full, stable enumeration. -/
def CombGen.run (g : CombGen) : Nat → List (List Nat)
  | 0 => []
  | fuel + 1 =>
    match g.next with
    | (true, g') => g'.Get :: g'.run fuel
    | (false, _) => []

/-! ### Specification-side description of the enumeration order

`combsFrom n a k` lists every strictly increasing `k`-tuple over `[a, n)` in
lexicographically increasing order (first elements ascending, recursively).
`combSeq n` is the full contractual sequence: sizes `0, 1, …, n` in order,
each size block in lexicographic order. -/

def combsFrom (n : Nat) : Nat → Nat → List (List Nat)
  | _, 0 => [[]]
  | a, k + 1 =>
    (List.range' a (n - k - a)).flatMap fun f => (combsFrom n (f + 1) k).map (f :: ·)

def combSeq (n : Nat) : List (List Nat) :=
  (List.range (n + 1)).flatMap fun k => combsFrom n 0 k

example : combSeq 3 = [[], [0], [1], [2], [0, 1], [0, 2], [1, 2], [0, 1, 2]] := by
  decide

example : (NewCombGen 3).run 9 =
    [[], [0], [1], [2], [0, 1], [0, 2], [1, 2], [0, 1, 2]] := by
  decide

example : (NewCombGen 0).run 5 = [[]] := by decide

example : ((NewCombGen 4).run 17).getD 4 [] = [3] := by decide

/-! ### Structure of `advanceStep` -/

/-- Scanning `c :: t` from the right decomposes into scanning `t` from the
right (the limits `n - len + i` coincide) followed by the attempt at
position `0`. -/
theorem advanceStep_cons (n c : Nat) (t : List Nat) :
    ∀ j, advanceStep n (c :: t) (j + 1) =
      match advanceStep n t j with
      | some t' => some (c :: t')
      | none =>
        if c + (t.length + 1) < n then some (List.range' (c + 1) (t.length + 1)) else none
  | 0 => by
    simp only [advanceStep, List.getD_cons_zero, List.length_cons, List.take_zero,
      Nat.add_zero, Nat.sub_zero, List.nil_append]
  | j + 1 => by
    have ih := advanceStep_cons n c t j
    by_cases hg : t.getD j 0 + t.length < n + j
    · have hg' : (c :: t).getD (j + 1) 0 + (c :: t).length < n + (j + 1) := by
        simp only [List.getD_cons_succ, List.length_cons]
        omega
      rw [show advanceStep n (c :: t) (j + 1 + 1) =
          some ((c :: t).take (j + 1) ++
            List.range' ((c :: t).getD (j + 1) 0 + 1) ((c :: t).length - (j + 1)))
        from by rw [advanceStep]; exact if_pos hg']
      rw [show advanceStep n t (j + 1) =
          some (t.take j ++ List.range' (t.getD j 0 + 1) (t.length - j))
        from by rw [advanceStep]; exact if_pos hg]
      simp [List.getD_cons_succ, List.take_succ_cons, Nat.succ_sub_succ]
    · have hg' : ¬ ((c :: t).getD (j + 1) 0 + (c :: t).length < n + (j + 1)) := by
        simp only [List.getD_cons_succ, List.length_cons]
        omega
      rw [show advanceStep n (c :: t) (j + 1 + 1) = advanceStep n (c :: t) (j + 1)
        from by rw [advanceStep]; exact if_neg hg']
      rw [show advanceStep n t (j + 1) = advanceStep n t j
        from by rw [advanceStep]; exact if_neg hg]
      exact ih

/-- The maximal `k`-combination `n-k, …, n-1` admits no advance. -/
theorem advanceStep_max (n : Nat) : ∀ k, k ≤ n → advanceStep n (List.range' (n - k) k) k = none
  | 0, _ => rfl
  | k + 1, h => by
    have hr : List.range' (n - (k + 1)) (k + 1) = (n - (k + 1)) :: List.range' (n - k) k := by
      rw [List.range'_succ]
      congr 2
      omega
    rw [hr, show (k + 1) = (List.range' (n - k) k).length + 1 by simp,
      advanceStep_cons, List.length_range',
      advanceStep_max n k (Nat.le_of_succ_le h)]
    have : ¬ (n - (k + 1) + (k + 1) < n) := by omega
    simp [this]

/-! ### Structure of the specified enumeration `combsFrom` -/

theorem combsFrom_succ (n a k : Nat) :
    combsFrom n a (k + 1) =
      (List.range' a (n - k - a)).flatMap fun f => (combsFrom n (f + 1) k).map (f :: ·) :=
  rfl

/-- A nonempty block starts with the minimal combination `a, a+1, …, a+k-1`. -/
theorem combsFrom_cons (n : Nat) : ∀ k a, a + k ≤ n →
    ∃ rest, combsFrom n a k = List.range' a k :: rest
  | 0, a, _ => ⟨[], rfl⟩
  | k + 1, a, h => by
    obtain ⟨rest, hrest⟩ := combsFrom_cons n k (a + 1) (by omega)
    refine ⟨rest.map (a :: ·) ++ (List.range' (a + 1) (n - k - a - 1)).flatMap
      (fun f => (combsFrom n (f + 1) k).map (f :: ·)), ?_⟩
    have hm : n - k - a = (n - k - a - 1) + 1 := by omega
    rw [combsFrom_succ, hm, List.range'_succ, List.flatMap_cons, hrest]
    simp [List.range'_succ]

theorem combsFrom_ne_nil (n k a : Nat) (h : a + k ≤ n) : combsFrom n a k ≠ [] := by
  obtain ⟨rest, hr⟩ := combsFrom_cons n k a h
  simp [hr]

theorem combsFrom_head? (n k a : Nat) (h : a + k ≤ n) :
    (combsFrom n a k).head? = some (List.range' a k) := by
  obtain ⟨rest, hr⟩ := combsFrom_cons n k a h
  simp [hr]

/-- A nonempty block ends with the maximal combination `n-k, …, n-1`. -/
theorem combsFrom_getLast? (n : Nat) : ∀ k a, a + k ≤ n →
    (combsFrom n a k).getLast? = some (List.range' (n - k) k)
  | 0, a, _ => by simp [combsFrom]
  | k + 1, a, h => by
    have hm : n - k - a = (n - k - a - 1) + 1 := by omega
    have hb : a + 1 * (n - k - a - 1) = n - k - 1 := by omega
    rw [combsFrom_succ, hm, List.range'_concat, List.flatMap_append, hb,
      List.flatMap_cons, List.flatMap_nil, List.append_nil]
    have hne : (combsFrom n (n - k - 1 + 1) k).map ((n - k - 1) :: ·) ≠ [] := by
      have := combsFrom_ne_nil n k (n - k - 1 + 1) (by omega)
      simpa using this
    rw [List.getLast?_append_of_ne_nil _ hne, List.getLast?_map,
      show n - k - 1 + 1 = n - k by omega,
      combsFrom_getLast? n k (n - k) (by omega)]
    have : List.range' (n - (k + 1)) (k + 1) = (n - k - 1) :: List.range' (n - k) k := by
      rw [List.range'_succ, show n - (k + 1) = n - k - 1 from by omega,
        show n - k - 1 + 1 = n - k from by omega]
    simp [this]

/-- Every element of `combsFrom n a k` has length `k`, is strictly increasing,
and draws its values from `[a, n)`. -/
theorem combsFrom_mem (n : Nat) : ∀ k a x, x ∈ combsFrom n a k →
    x.length = k ∧ List.Sorted (· < ·) x ∧ ∀ v ∈ x, a ≤ v ∧ v < n
  | 0, a, x, hx => by
    simp only [combsFrom, List.mem_singleton] at hx
    subst hx
    simp
  | k + 1, a, x, hx => by
    rw [combsFrom_succ] at hx
    simp only [List.mem_flatMap, List.mem_map, List.mem_range'_1] at hx
    obtain ⟨f, hf, y, hy, rfl⟩ := hx
    obtain ⟨hlen, hsort, hbounds⟩ := combsFrom_mem n k (f + 1) y hy
    refine ⟨by simp [hlen], ?_, ?_⟩
    · rw [List.sorted_cons]
      exact ⟨fun b hb => by have := (hbounds b hb).1; omega, hsort⟩
    · intro v hv
      rcases List.mem_cons.1 hv with rfl | hv'
      · omega
      · have := hbounds v hv'
        omega

theorem combsFrom_nodup (n : Nat) : ∀ k a, (combsFrom n a k).Nodup
  | 0, _ => by simp [combsFrom]
  | k + 1, a => by
    rw [combsFrom_succ, List.nodup_flatMap]
    constructor
    · exact fun f _ => (combsFrom_nodup n k (f + 1)).map List.cons_injective
    · refine (List.nodup_range' a (n - k - a)).imp ?_
      intro f g hne x hxf hxg
      simp only [List.mem_map] at hxf hxg
      obtain ⟨y, _, rfl⟩ := hxf
      obtain ⟨z, _, hzy⟩ := hxg
      exact hne (by injection hzy with h1 _; exact h1.symm) |>.elim

/-- Hockey-stick summation for the block lengths. -/
theorem combsFrom_length_aux (n k : Nat) : ∀ m a, m = n - k - a →
    ((List.range' a m).map fun f => (n - (f + 1)).choose k).sum = (n - a).choose (k + 1)
  | 0, a, h => by
    simp only [List.range'_zero, List.map_nil, List.sum_nil]
    rw [Nat.choose_eq_zero_of_lt (by omega)]
  | m + 1, a, h => by
    rw [List.range'_succ, List.map_cons, List.sum_cons,
      combsFrom_length_aux n k m (a + 1) (by omega),
      show n - a = (n - (a + 1)) + 1 from by omega, Nat.choose_succ_succ]

theorem combsFrom_length (n : Nat) : ∀ k a, (combsFrom n a k).length = (n - a).choose k
  | 0, a => by simp [combsFrom]
  | k + 1, a => by
    rw [combsFrom_succ, List.length_flatMap,
      show List.map (List.length ∘ fun f => (combsFrom n (f + 1) k).map (f :: ·))
          (List.range' a (n - k - a))
        = (List.range' a (n - k - a)).map fun f => (n - (f + 1)).choose k from
        List.map_congr_left fun f _ => by simp [combsFrom_length n k (f + 1)],
      combsFrom_length_aux n k (n - k - a) a rfl]

theorem combSeq_length (n : Nat) : (combSeq n).length = 2 ^ n := by
  rw [combSeq, List.length_flatMap,
    show List.map (List.length ∘ fun k => combsFrom n 0 k) (List.range (n + 1))
      = (List.range (n + 1)).map fun k => n.choose k from
      List.map_congr_left fun k _ => by simp [combsFrom_length n k 0]]
  have h2 : ∀ m : Nat,
      ((List.range m).map fun k => n.choose k).sum = ∑ k ∈ Finset.range m, n.choose k := by
    intro m
    induction m with
    | zero => simp
    | succ m ih =>
      rw [List.range_succ, List.map_append, List.sum_append, Finset.sum_range_succ, ih]
      simp
  rw [h2, Nat.sum_range_choose]

theorem combSeq_nodup (n : Nat) : (combSeq n).Nodup := by
  rw [combSeq, List.nodup_flatMap]
  refine ⟨fun k _ => combsFrom_nodup n k 0, (List.nodup_range (n + 1)).imp ?_⟩
  intro k k' hne x hxk hxk'
  exact hne ((combsFrom_mem n k 0 x hxk).1 ▸ (combsFrom_mem n k' 0 x hxk').1 ▸ rfl) |>.elim

/-! ### Chain lemmas: consecutive enumeration states are one `Next` apart -/

/-- One successful `Next` step from combination `x` to combination `y`. -/
def stepRel (n : Nat) (x y : List Nat) : Prop :=
  CombGen.next ⟨n, some x⟩ = (true, ⟨n, some y⟩)

/-- A successful inner-loop advance from `x` to `y`. -/
def advRel (n : Nat) (x y : List Nat) : Prop :=
  advanceStep n x x.length = some y

theorem advRel_cons (n c : Nat) {x y : List Nat} (h : advRel n x y) :
    advRel n (c :: x) (c :: y) := by
  unfold advRel at h ⊢
  rw [List.length_cons, advanceStep_cons, h]

theorem chain'_imp_mem {α : Type} {R S : α → α → Prop} :
    ∀ {l : List α}, List.Chain' R l → (∀ a ∈ l, ∀ b ∈ l, R a b → S a b) → List.Chain' S l
  | [], _, _ => List.chain'_nil
  | [_], _, _ => by simp
  | a :: b :: t, h, himp => by
    rw [List.chain'_cons] at h ⊢
    refine ⟨himp a (by simp) b (by simp) h.1, ?_⟩
    exact chain'_imp_mem h.2 fun x hx y hy hr =>
      himp x (List.mem_cons_of_mem a hx) y (List.mem_cons_of_mem a hy) hr

theorem chain'_flatMap {α β : Type} {R : β → β → Prop} :
    ∀ (l : List α) (g : α → List β),
      (∀ a ∈ l, g a ≠ []) →
      (∀ a ∈ l, List.Chain' R (g a)) →
      List.Chain' (fun a b => ∀ x ∈ (g a).getLast?, ∀ y ∈ (g b).head?, R x y) l →
      List.Chain' R (l.flatMap g)
  | [], _, _, _, _ => by simp
  | [a], g, _, hblock, _ => by simpa using hblock a (by simp)
  | a :: b :: t, g, hne, hblock, hlink => by
    rw [List.flatMap_cons, List.chain'_append]
    rw [List.chain'_cons] at hlink
    refine ⟨hblock a (by simp),
      chain'_flatMap (b :: t) g (fun x hx => hne x (List.mem_cons_of_mem a hx))
        (fun x hx => hblock x (List.mem_cons_of_mem a hx)) hlink.2, ?_⟩
    intro x hx y hy
    have hhead : ((b :: t).flatMap g).head? = (g b).head? := by
      rw [List.flatMap_cons, List.head?_append_of_ne_nil _ (hne b (by simp))]
    exact hlink.1 x hx y (hhead ▸ hy)

theorem chain'_range' {P : Nat → Nat → Prop} :
    ∀ m a, (∀ i, a ≤ i → i + 1 < a + m → P i (i + 1)) → List.Chain' P (List.range' a m)
  | 0, _, _ => by simp
  | m + 1, a, h => by
    rw [List.range'_succ]
    cases m with
    | zero => simp
    | succ m' =>
      rw [List.range'_succ, List.chain'_cons]
      refine ⟨h a (Nat.le_refl a) (by omega), ?_⟩
      rw [← List.range'_succ]
      exact chain'_range' (m' + 1) (a + 1) fun i hi hlt => h i (by omega) (by omega)

/-- Within one size block, consecutive combinations are one inner-loop
advance apart. -/
theorem combsFrom_chain' (n : Nat) : ∀ k a, a + k ≤ n →
    List.Chain' (advRel n) (combsFrom n a k)
  | 0, _, _ => by simp [combsFrom]
  | k + 1, a, h => by
    rw [combsFrom_succ]
    apply chain'_flatMap
    · intro f hf
      rw [List.mem_range'_1] at hf
      have := combsFrom_ne_nil n k (f + 1) (by omega)
      simpa using this
    · intro f hf
      rw [List.mem_range'_1] at hf
      rw [List.chain'_map]
      exact (combsFrom_chain' n k (f + 1) (by omega)).imp fun x y hr => advRel_cons n f hr
    · apply chain'_range'
      intro f hfa hfl x hx y hy
      rw [List.getLast?_map, combsFrom_getLast? n k (f + 1) (by omega)] at hx
      rw [List.head?_map, combsFrom_head? n k (f + 1 + 1) (by omega)] at hy
      simp only [Option.map_some', Option.mem_def, Option.some.injEq] at hx hy
      subst hx
      subst hy
      unfold advRel
      rw [List.length_cons, List.length_range', advanceStep_cons, List.length_range',
        advanceStep_max n k (by omega), if_pos (by omega)]
      rw [show List.range' (f + 1) (k + 1) = (f + 1) :: List.range' (f + 1 + 1) k from
        List.range'_succ ..]

theorem stepRel_of_advRel {n : Nat} {x y : List Nat} (hlen : x.length ≤ n)
    (h : advRel n x y) : stepRel n x y := by
  unfold stepRel
  show CombGen.next ⟨n, some x⟩ = _
  rw [CombGen.next, if_neg (by omega)]
  unfold advRel at h
  rw [h]

/-- When the maximal `k`-combination is the state and `k < n`, `Next` grows to
the minimal combination of the next size. -/
theorem stepRel_grow (n k : Nat) (h : k + 1 ≤ n) :
    stepRel n (List.range' (n - k) k) (List.range' 0 (k + 1)) := by
  unfold stepRel
  rw [CombGen.next, if_neg (by rw [List.length_range']; omega),
    show advanceStep n (List.range' (n - k) k) (List.range' (n - k) k).length = none from by
      rw [List.length_range']; exact advanceStep_max n k (by omega)]
  have hlen : (List.range' (n - k) k ++ [0]).length = k + 1 := by simp
  rw [if_neg (by rw [hlen]; omega)]
  rw [hlen, List.range_eq_range']

/-- After the full combination `0, …, n-1` the generator reports exhaustion. -/
theorem next_last_false (n : Nat) : (CombGen.next ⟨n, some (List.range n)⟩).1 = false := by
  rw [List.range_eq_range', CombGen.next, if_neg (by rw [List.length_range']; omega),
    show advanceStep n (List.range' 0 n) (List.range' 0 n).length = none from by
      rw [List.length_range']
      have := advanceStep_max n n (Nat.le_refl n)
      rwa [Nat.sub_self] at this]
  have hlen : (List.range' 0 n ++ [0]).length = n + 1 := by simp
  rw [if_pos (by rw [hlen]; omega)]

/-- The whole contractual sequence is a chain of successful `Next` steps. -/
theorem combSeq_chain' (n : Nat) : List.Chain' (stepRel n) (combSeq n) := by
  rw [combSeq]
  apply chain'_flatMap
  · intro k hk
    rw [List.mem_range] at hk
    exact combsFrom_ne_nil n k 0 (by omega)
  · intro k hk
    rw [List.mem_range] at hk
    exact chain'_imp_mem (combsFrom_chain' n k 0 (by omega)) fun x hx y _ hr =>
      stepRel_of_advRel (by rw [(combsFrom_mem n k 0 x hx).1]; omega) hr
  · rw [List.range_eq_range']
    apply chain'_range'
    intro k hk0 hkl x hx y hy
    rw [combsFrom_getLast? n k 0 (by omega)] at hx
    rw [combsFrom_head? n (k + 1) 0 (by omega)] at hy
    simp only [Option.mem_def, Option.some.injEq] at hx hy
    subst hx
    subst hy
    exact stepRel_grow n k (by omega)

theorem combSeq_eq_cons (n : Nat) :
    combSeq n = [] :: (List.range' 1 n).flatMap fun k => combsFrom n 0 k := by
  rw [combSeq, List.range_eq_range', List.range'_succ, List.flatMap_cons]
  rfl

theorem combSeq_getLast? (n : Nat) : (combSeq n).getLast? = some (List.range n) := by
  rw [combSeq, List.range_succ, List.flatMap_append, List.flatMap_cons, List.flatMap_nil,
    List.append_nil, List.getLast?_append_of_ne_nil _ (combsFrom_ne_nil n n 0 (by omega)),
    combsFrom_getLast? n n 0 (by omega), Nat.sub_self, List.range_eq_range']

/-- Driving the loop along a chain of successful steps that ends in an
exhausted state reproduces exactly the chain's tail. -/
theorem run_of_chain (n : Nat) : ∀ (l : List (List Nat)) (c : List Nat) (fuel : Nat),
    List.Chain' (stepRel n) (c :: l) →
    (∀ z ∈ (c :: l).getLast?, (CombGen.next ⟨n, some z⟩).1 = false) →
    l.length ≤ fuel →
    CombGen.run ⟨n, some c⟩ fuel = l
  | [], c, fuel, _, hterm, _ => by
    cases fuel with
    | zero => rfl
    | succ f =>
      rw [CombGen.run]
      rcases hnext : CombGen.next ⟨n, some c⟩ with ⟨b, g'⟩
      cases b
      · simp
      · exfalso
        have hf := hterm c (by simp)
        rw [hnext] at hf
        simp at hf
  | b :: rest, c, fuel, hchain, hterm, hlen => by
    rw [List.chain'_cons] at hchain
    cases fuel with
    | zero => exact absurd hlen (by simp)
    | succ f =>
      rw [CombGen.run, show CombGen.next ⟨n, some c⟩ = (true, ⟨n, some b⟩) from hchain.1]
      show b :: CombGen.run ⟨n, some b⟩ f = b :: rest
      congr 1
      refine run_of_chain n rest b f hchain.2
        (fun z hz => hterm z (by rwa [List.getLast?_cons_cons]))
        (by simp only [List.length_cons] at hlen; omega)

/-- C2.  For every `n ≥ 0`, a fresh `CombGen(n)` driven by repeated
`Next`/`Get` (modeled by `CombGen.run` with any iteration budget
`fuel ≥ 2 ^ n`) yields exactly the sequence `combSeq n`: the empty set first,
then the size-1 subsets `{0}, …, {n-1}` in ascending index order, then each
larger size in lexicographically increasing index-tuple order, ending with the
full set `0, …, n-1` — `2 ^ n` subsets in total, all distinct, and after the
full set `Next` returns `false` (the output is the same for every sufficient
`fuel`, so the enumeration terminates).  In particular `n = 0` yields exactly
the one empty subset. -/
theorem combGen_enumerates (n fuel : Nat) (hfuel : 2 ^ n ≤ fuel) :
    (NewCombGen n).run fuel = combSeq n ∧
    (combSeq n).length = 2 ^ n ∧
    (combSeq n).Nodup ∧
    (combSeq n).head? = some [] ∧
    (combSeq n).getLast? = some (List.range n) ∧
    (∀ x ∈ combSeq n, List.Sorted (· < ·) x ∧ ∀ v ∈ x, v < n) ∧
    combSeq 0 = [[]] := by
  refine ⟨?_, combSeq_length n, combSeq_nodup n, by rw [combSeq_eq_cons]; rfl,
    combSeq_getLast? n, ?_, rfl⟩
  · obtain ⟨f, rfl⟩ : ∃ f, fuel = f + 1 :=
      ⟨fuel - 1, by have := @Nat.one_le_two_pow n; omega⟩
    rw [show (NewCombGen n).run (f + 1) = [] :: CombGen.run ⟨n, some []⟩ f from rfl,
      combSeq_eq_cons n]
    congr 1
    refine run_of_chain n _ [] f ?_ ?_ ?_
    · rw [← combSeq_eq_cons]
      exact combSeq_chain' n
    · intro z hz
      rw [← combSeq_eq_cons, combSeq_getLast? n] at hz
      simp only [Option.mem_def, Option.some.injEq] at hz
      subst hz
      exact next_last_false n
    · have hl := combSeq_length n
      rw [combSeq_eq_cons] at hl
      simp only [List.length_cons] at hl
      omega
  · intro x hx
    rw [combSeq] at hx
    simp only [List.mem_flatMap, List.mem_range] at hx
    obtain ⟨k, _, hxk⟩ := hx
    obtain ⟨_, hs, hb⟩ := combsFrom_mem n k 0 x hxk
    exact ⟨hs, fun v hv => (hb v hv).2⟩

/-- Witness for C2 at `n = 3`, `fuel = 8`: the concrete enumeration is the
eight subsets of `{0,1,2}` in the contractual order. -/
theorem combGen_enumerates_witness :
    (2 : Nat) ^ 3 ≤ 8 ∧
      ((NewCombGen 3).run 8 = combSeq 3 ∧
        (combSeq 3).length = 2 ^ 3 ∧
        (combSeq 3).Nodup ∧
        (combSeq 3).head? = some [] ∧
        (combSeq 3).getLast? = some (List.range 3) ∧
        (∀ x ∈ combSeq 3, List.Sorted (· < ·) x ∧ ∀ v ∈ x, v < 3) ∧
        combSeq 0 = [[]]) ∧
      combSeq 3 = [[], [0], [1], [2], [0, 1], [0, 2], [1, 2], [0, 1, 2]] :=
  ⟨by decide, combGen_enumerates 3 8 (by decide), by decide⟩

/-! ## Input data model (main.go)

`aType` is the `(package-alias, simple-name)` pair; `aType.String` and
`aType.StringNoDot` are its two renderings.  (The Go field `at` is spelled
`at'` here because `at` is a Lean keyword.)  `extraField` keeps the
`(name, typeStr)` pair; the parsed `ast.Expr` field only feeds the resolver,
which is modeled separately.  `resolvedType` drops the `*types.Named` graph
pointer for the same reason. -/

structure aType where
  pkgName : String
  name : String

def aType.StringNoDot (t : aType) : String :=
  if t.pkgName ≠ "" then t.pkgName ++ t.name else t.name

def aType.String (t : aType) : String :=
  if t.pkgName ≠ "" then t.pkgName ++ "." ++ t.name else t.name

/-- Sequential emission of one formatted chunk per list element (each Go
`for … { fmt.Fprintf(w, …) }` loop). -/
def strJoin : List String → String
  | [] => ""
  | s :: rest => s ++ strJoin rest

theorem strJoin_append (l₁ l₂ : List String) :
    strJoin (l₁ ++ l₂) = strJoin l₁ ++ strJoin l₂ := by
  induction l₁ with
  | nil => simp [strJoin]
  | cons s rest ih => simp [strJoin, ih, String.append_assoc]

structure extraField where
  name : String
  typeStr : String

structure resolvedType where
  at' : aType
  origPkgName : String
  pkgPath : String

structure resolvedTypes where
  thisPkgName : String
  thisPkgPath : String
  resolvedBaseType : resolvedType
  resolvedExtTypes : List resolvedType
  resolvedEfTypes : List resolvedType

/-! ## `printNewFunc` — the dispatch constructor (main.go)

The writer `w` is modeled by returning the emitted text; `fmt.Fprintf`
applications become string concatenations in emission order, `%d` on the
`uint64` counter is `Nat.repr`. -/

/-- One `case i<en><counter>:` arm of the type switch. -/
def newFuncCase (en : String) (counter : Nat) (extraFields : List extraField) : String :=
  let tbn := en ++ Nat.repr counter
  "\tcase i" ++ tbn ++ ":\n\t\treturn &t" ++ tbn ++ "\x7b\n\t\t\tr: r,\n" ++
    strJoin (extraFields.map fun ef => "\t\t\t" ++ ef.name ++ ": " ++ ef.name ++ ",\n") ++
    "\t\t\x7d\n"

/-- The `for counter := nComb - 1; counter > 0; counter--` loop: the argument
is the starting counter, arms are emitted for it down to `1`. -/
def newFuncCases (en : String) (extraFields : List extraField) : Nat → String
  | 0 => ""
  | counter + 1 => newFuncCase en (counter + 1) extraFields ++ newFuncCases en extraFields counter

/-- The very counter sequence the countdown loop visits. -/
def countdownCounters : Nat → List Nat
  | 0 => []
  | c + 1 => (c + 1) :: countdownCounters c

/-- `printNewFunc` (the Go parameter `prefix` is spelled `pfx`). -/
def printNewFunc (funcName pfx : String) (rt : resolvedTypes)
    (extraFields : List extraField) : String :=
  let varName := pfx ++ rt.resolvedBaseType.at'.name
  let en := rt.resolvedBaseType.at'.StringNoDot
  let header := "func " ++ funcName ++ "(" ++ varName ++ " " ++
    rt.resolvedBaseType.at'.String ++
    strJoin (extraFields.map fun ef => ", " ++ ef.name ++ " " ++ ef.typeStr) ++
    ") " ++ rt.resolvedBaseType.at'.String ++ " \x7b\n"
  let nComb := NCombs rt.resolvedExtTypes.length
  let switchPart :=
    if nComb > 1 then
      "\tswitch r := " ++ varName ++ ".(type) \x7b\n" ++
        newFuncCases en extraFields (nComb - 1) ++ "\t\x7d\n"
    else ""
  let footer := "\treturn &t" ++ en ++ "0\x7b\n\t\tr: " ++ varName ++ ",\n" ++
    strJoin (extraFields.map fun ef => "\t\t" ++ ef.name ++ ": " ++ ef.name ++ ",\n") ++
    "\t\x7d\n\x7d\n"
  header ++ switchPart ++ footer

/-- The constructor section exactly as the specification claim words it:
take `x : B` plus the extra fields and return `B`; when `n > 0` dispatch on
the dynamic type of `x` by testing membership in each `iB<k>` for `k` from
`2 ^ n - 1` down to `1` in strictly descending subset-index order; otherwise
(and when no case matches) return `tB<0>`. -/
def specNewFunc (funcName pfx : String) (rt : resolvedTypes)
    (extraFields : List extraField) : String :=
  let n := rt.resolvedExtTypes.length
  let x := pfx ++ rt.resolvedBaseType.at'.name
  let b := rt.resolvedBaseType.at'.String
  let en := rt.resolvedBaseType.at'.StringNoDot
  "func " ++ funcName ++ "(" ++ x ++ " " ++ b ++
    strJoin (extraFields.map fun ef => ", " ++ ef.name ++ " " ++ ef.typeStr) ++
    ") " ++ b ++ " \x7b\n" ++
  (if 0 < n then
      "\tswitch r := " ++ x ++ ".(type) \x7b\n" ++
        strJoin (((List.range (2 ^ n - 1)).reverse.map (· + 1)).map fun k =>
          newFuncCase en k extraFields) ++ "\t\x7d\n"
    else "") ++
  "\treturn &t" ++ en ++ "0\x7b\n\t\tr: " ++ x ++ ",\n" ++
    strJoin (extraFields.map fun ef => "\t\t" ++ ef.name ++ ": " ++ ef.name ++ ",\n") ++
    "\t\x7d\n\x7d\n"

theorem countdownCounters_eq (m : Nat) :
    countdownCounters m = (List.range m).reverse.map (· + 1) := by
  induction m with
  | zero => rfl
  | succ m ih =>
    rw [countdownCounters, List.range_succ, List.reverse_append, List.map_append, ih]
    rfl

theorem newFuncCases_eq (en : String) (efs : List extraField) (m : Nat) :
    newFuncCases en efs m =
      strJoin (((List.range m).reverse.map (· + 1)).map fun k => newFuncCase en k efs) := by
  induction m with
  | zero => rfl
  | succ m ih =>
    rw [newFuncCases, List.range_succ, List.reverse_append, List.map_append, List.map_append,
      strJoin_append, ih]
    simp [strJoin]

theorem NCombs_eq_pow {n : Nat} (h : n ≤ 63) : NCombs n = 2 ^ n := by
  rw [NCombs, Nat.shiftLeft_eq, Nat.one_mul]
  exact Nat.mod_eq_of_lt (Nat.pow_lt_pow_right (by omega) (by omega))

/-- Concrete resolved base type `driver.Conn` for evaluation. -/
def resConn : resolvedType := ⟨⟨"driver", "Conn"⟩, "driver", "database/sql/driver"⟩

/-- A concrete invocation with two extensions. -/
def rtConn2 : resolvedTypes :=
  ⟨"test", "example.com/test", resConn,
    [⟨⟨"driver", "ConnBeginTx"⟩, "driver", "database/sql/driver"⟩,
     ⟨⟨"driver", "Pinger"⟩, "driver", "database/sql/driver"⟩], []⟩

/-- A concrete invocation with 64 extensions (the `uint64` shift in `NCombs`
wraps to `0` there). -/
def rt64 : resolvedTypes :=
  ⟨"test", "example.com/test", resConn, List.replicate 64 resConn, []⟩

set_option maxRecDepth 8000 in
/-- C6 counterexample: with `n = 64 > 0` extensions, `NCombs` wraps to `0`,
the `nComb > 1` guard fails, and the constructor is emitted with **no** type
switch at all — no `case i…` arm occurs in the output — contradicting the
claim's "when n > 0 it dispatches on the dynamic type of x by testing
membership in iB<k> for k from 2ⁿ-1 down to 1". -/
theorem printNewFunc_no_dispatch_at_64 :
    rt64.resolvedExtTypes.length = 64 ∧
    0 < rt64.resolvedExtTypes.length ∧
    printNewFunc "newConn" "realDC" rt64 [] =
      "func newConn(realDCConn driver.Conn) driver.Conn \x7b\n\treturn &tdriverConn0\x7b\n\t\tr: realDCConn,\n\t\x7d\n\x7d\n" ∧
    ¬ ("case i".data <:+:
        (printNewFunc "newConn" "realDC" rt64 []).data) := by
  refine ⟨by decide, by decide, by decide, by decide⟩

/-- C6 (amended): for at most 63 extensions the emitted constructor is exactly
the one the specification describes — signature `<newName>(x: B, extra…) B`,
a type switch testing `iB<k>` for `k = 2ⁿ-1, …, 1` in strictly descending
order exactly when `n > 0`, each arm returning `&tB<k>` with `r` bound to the
switched value and every extra field copied, and the fallback `&tB<0>`. -/
theorem printNewFunc_eq_spec (funcName pfx : String) (rt : resolvedTypes)
    (efs : List extraField) (h : rt.resolvedExtTypes.length ≤ 63) :
    printNewFunc funcName pfx rt efs = specNewFunc funcName pfx rt efs := by
  simp only [printNewFunc, specNewFunc, NCombs_eq_pow h, newFuncCases_eq]
  by_cases hn : 0 < rt.resolvedExtTypes.length
  · rw [if_pos (Nat.one_lt_two_pow_iff.mpr (by omega)), if_pos hn]
    simp only [String.append_assoc]
  · have h0 : rt.resolvedExtTypes.length = 0 := by omega
    rw [h0, if_neg (by norm_num), if_neg (by omega)]
    simp only [String.append_assoc, String.append_empty, String.empty_append]

/-- Witness for the amended C6 at two extensions and one extra field. -/
theorem printNewFunc_eq_spec_witness :
    (rtConn2.resolvedExtTypes.length ≤ 63) ∧
      printNewFunc "newConn" "realDC" rtConn2 [⟨"extra", "interface\x7b\x7d"⟩] =
        specNewFunc "newConn" "realDC" rtConn2 [⟨"extra", "interface\x7b\x7d"⟩] :=
  ⟨by decide, printNewFunc_eq_spec "newConn" "realDC" rtConn2
    [⟨"extra", "interface\x7b\x7d"⟩] (by decide)⟩

/-- C10.  For every `0 ≤ n ≤ 63`, `NCombs n = 2 ^ n`, which is exactly the
number of subsets a fresh `CombGen(n)` produces before `Next` first returns
`false` (for every sufficient iteration budget); moreover the constructor's
countdown case counters `NCombs n - 1, …, 1` followed by its fallback index
`0`, read in reverse, are exactly the counting-up indices `0, …, 2ⁿ - 1` the
types/vars/impls sections traverse — both sides cover the same subset-index
set. -/
theorem NCombs_matches_enumerator (n : Nat) (h : n ≤ 63) :
    NCombs n = 2 ^ n ∧
    (∀ fuel, 2 ^ n ≤ fuel → ((NewCombGen n).run fuel).length = NCombs n) ∧
    (countdownCounters (NCombs n - 1) ++ [0]).reverse = List.range (NCombs n) := by
  have hpow := NCombs_eq_pow h
  refine ⟨hpow, ?_, ?_⟩
  · intro fuel hf
    rw [(combGen_enumerates n fuel hf).1, combSeq_length n, hpow]
  · rw [hpow, countdownCounters_eq, List.reverse_append, List.map_reverse,
      List.reverse_reverse]
    obtain ⟨m, hm⟩ : ∃ m, 2 ^ n = m + 1 :=
      ⟨2 ^ n - 1, by have := @Nat.one_le_two_pow n; omega⟩
    rw [hm]
    simp only [Nat.add_sub_cancel]
    rw [show (List.range m).map (· + 1) = List.range' 1 m from by
        rw [List.range'_eq_map_range]
        exact List.map_congr_left fun a _ => by omega,
      List.range_eq_range', List.range'_succ]
    simp

/-- Witness for C10 at `n = 3`. -/
theorem NCombs_matches_enumerator_witness :
    ((3 : Nat) ≤ 63) ∧
      (NCombs 3 = 2 ^ 3 ∧
        (∀ fuel, 2 ^ 3 ≤ fuel → ((NewCombGen 3).run fuel).length = NCombs 3) ∧
        (countdownCounters (NCombs 3 - 1) ++ [0]).reverse = List.range (NCombs 3)) :=
  ⟨by decide, NCombs_matches_enumerator 3 (by decide)⟩

/-! ## The impls emitter and its `excludes` deduplication (main.go)

`pkgPathAndName` and `interfaceInfo` are as in the source; the analysed
closure `typeAnalysis.typeInfo` (`pkg path -> type name -> interface info`,
two nested Go maps) is an association list keyed by the pair.  The writer is
abstracted to the sequence of emitted method implementations, each recorded
as the pair `(receiver type name tbn, method name)` — the claim under test
counts method emissions, and every emission of
`printExplicitImplsOfInterface` produces exactly one `func (o<tbn> *t<tbn>)
<method>(…) …` block.  The blank-line separators `printImpls` writes between
subsets carry no method and are dropped.

The recursion of `printImplsFromInterfaceRecursive` /
`printImplsOfEmbeddedTypes` descends through the embedded-interface graph,
which Go guarantees acyclic (an interface cannot embed itself transitively),
so an explicit `fuel` bounds the depth; all theorems evaluate on concrete
closures with ample fuel. -/

structure pkgPathAndName where
  pkgPath : String
  typeName : String
deriving DecidableEq

def pkgPathAndName.String (i : pkgPathAndName) : String :=
  if i.pkgPath ≠ "" then "\"" ++ i.pkgPath ++ "\"." ++ i.typeName else i.typeName

structure parameterInfo where
  name : String
  typeStr : String

structure methodInfo where
  name : String
  parameters : List parameterInfo
  returnTypes : List String

structure interfaceInfo where
  embeddedTypes : List pkgPathAndName
  explicitMethods : List methodInfo

/-- A `*packages.Package` as the analyser observes it: declared name
and import path. -/
structure GoPkg where
  name : String
  path : String

/-- One entry of `iface.EmbeddedType(idx)` as `go/types` presents it to
`analyzeEmbeddedTypes`: either a `*types.Named` — carrying the object name,
the owning package (`nil` for universe types), and `some` list of embedded
entries when its underlying type is an interface (`none` otherwise) — or some
other, non-named type.  Explicit methods play no role in that function and
are omitted. -/
inductive GoIfaceEmb where
  | named (objName : String) (pkg : Option GoPkg) (under : Option (List GoIfaceEmb))
  | notNamed

/-- `typeAnalysis`; `imports` is the Go map `pkg path -> name`, `typeInfo`
the nested map `pkg path -> type name -> interface info`, both as association
lists; `typeQueue` holds the queued `processedType` pairs. -/
structure typeAnalysis where
  thisPkgPath : String
  imports : List (String × String)
  typeInfo : List ((String × String) × interfaceInfo)
  typeQueue : List (pkgPathAndName × List GoIfaceEmb)

/-- `mustGet`; the `bug(…)` abort on a missing entry is modeled by an empty
default — the runs evaluated below never reach it. -/
def typeAnalysis.mustGet (ta : typeAnalysis) (info : pkgPathAndName) : interfaceInfo :=
  (ta.typeInfo.lookup (info.pkgPath, info.typeName)).getD ⟨[], []⟩

/-- `printExplicitImplsOfInterface`: one implementation block per explicitly
declared method of `info`. -/
def printExplicitImplsOfInterface (ta : typeAnalysis) (info : pkgPathAndName)
    (tbn : String) : List (String × String) :=
  (ta.mustGet info).explicitMethods.map fun mi => (tbn, mi.name)

/-- `printImplsOfEmbeddedTypes`, looping over the remaining embedded types:

```go
newExcludes := StringSet{}
for _, eti := range ifaceInfo.embeddedTypes {
    etiStr := eti.String()
    if excludes.Has(etiStr) { continue }
    newExcludes.Add(etiStr)
    subExcludes := printImplsFromInterfaceRecursive(w, eti, ta, newExcludes, …)
    newExcludes.AddSet(subExcludes)
}
return newExcludes
```

Note the loop guard consults only the caller's `excludes`, never the
`newExcludes` accumulated so far.  The mutual recursion into
`printImplsFromInterfaceRecursive` is passed in as `recur` so that the pair
of functions is structurally recursive on the fuel. -/
def printImplsOfEmbeddedTypes
    (recur : pkgPathAndName → StringSet → List (String × String) × StringSet)
    (excludes : StringSet) :
    List pkgPathAndName → StringSet → List (String × String) × StringSet
  | [], newExcludes => ([], newExcludes)
  | eti :: rest, newExcludes =>
    let etiStr := eti.String
    if excludes.Has etiStr then
      printImplsOfEmbeddedTypes recur excludes rest newExcludes
    else
      let ne1 := newExcludes.Add etiStr
      let step := recur eti ne1
      let ne2 := ne1.AddSet step.2
      let next := printImplsOfEmbeddedTypes recur excludes rest ne2
      (step.1 ++ next.1, next.2)

/-- `printImplsFromInterfaceRecursive`. -/
def printImplsFromInterfaceRecursive (ta : typeAnalysis) (tbn : String) :
    Nat → pkgPathAndName → StringSet → List (String × String) × StringSet
  | 0, _, excludes => ([], excludes)
  | fuel + 1, info, excludes =>
    let sub := printImplsOfEmbeddedTypes
      (fun i ex => printImplsFromInterfaceRecursive ta tbn fuel i ex) excludes
      (ta.mustGet info).embeddedTypes []
    let outM := printExplicitImplsOfInterface ta info tbn
    let newExcludes := StringSet.AddSet (StringSet.AddSet [] excludes) sub.2
    (sub.1 ++ outM, newExcludes)

/-- `printImplsFromResolvedType` (a `nil` Go excludes set behaves exactly like
an empty one and is modeled by `[]`). -/
def printImplsFromResolvedType (fuel : Nat) (ta : typeAnalysis) (resType : resolvedType)
    (tbn : String) (excludes : StringSet) : List (String × String) × StringSet :=
  let info : pkgPathAndName := ⟨resType.pkgPath, resType.at'.name⟩
  let newExcludes := StringSet.Add (StringSet.AddSet [] excludes) info.String
  printImplsFromInterfaceRecursive ta tbn fuel info newExcludes

instance : Inhabited resolvedType := ⟨⟨⟨"", ""⟩, "", ""⟩⟩

/-- The subset loop of `printImpls`, one iteration per enumerated subset. -/
def printImplsLoop (walkFuel : Nat) (rt : resolvedTypes) (ta : typeAnalysis) :
    List (List Nat) → Nat → List (String × String)
  | [], _ => []
  | idxs :: rest, counter =>
    let en := rt.resolvedBaseType.at'.StringNoDot
    let tbn := en ++ Nat.repr counter
    let first := printImplsFromResolvedType walkFuel ta rt.resolvedBaseType tbn []
    let folded := idxs.foldl
      (fun (acc : List (String × String) × StringSet) idx =>
        let step := printImplsFromResolvedType walkFuel ta
          (rt.resolvedExtTypes.getD idx default) tbn acc.2
        (acc.1 ++ step.1, step.2))
      first
    folded.1 ++ printImplsLoop walkFuel rt ta rest (counter + 1)

/-- `printImpls`: drive the enumerator over all subsets (`combFuel ≥ 2 ^ n`
iterations suffice) and emit each subset's implementations. -/
def printImpls (combFuel walkFuel : Nat) (rt : resolvedTypes) (ta : typeAnalysis) :
    List (String × String) :=
  printImplsLoop walkFuel rt ta ((NewCombGen rt.resolvedExtTypes.length).run combFuel) 0

/-- Closure in which the base interface `X` embeds `A` and `C` directly while
`A` also embeds `C`; `C` declares the single method `F`. -/
def taDiamond : typeAnalysis :=
  ⟨"example.com/w", [],
   [(("q", "X"), ⟨[⟨"q", "A"⟩, ⟨"q", "C"⟩], []⟩),
    (("q", "A"), ⟨[⟨"q", "C"⟩], []⟩),
    (("q", "C"), ⟨[], [⟨"F", [], []⟩]⟩)], []⟩

def rtDiamond : resolvedTypes :=
  ⟨"w", "example.com/w", ⟨⟨"q", "X"⟩, "q", "q"⟩, [], []⟩

/-- Closure of the benign sibling shape: `X` embeds `A` and `B`, both of which
embed `C`. -/
def taSibling : typeAnalysis :=
  ⟨"example.com/w", [],
   [(("q", "X"), ⟨[⟨"q", "A"⟩, ⟨"q", "B"⟩], []⟩),
    (("q", "A"), ⟨[⟨"q", "C"⟩], []⟩),
    (("q", "B"), ⟨[⟨"q", "C"⟩], []⟩),
    (("q", "C"), ⟨[], [⟨"F", [], []⟩]⟩)], []⟩

/-- C1 evidence.  The guard of `printImplsOfEmbeddedTypes` consults only the
caller's `excludes`, not the `newExcludes` accumulated across siblings, so in
the closure where the base `X` directly embeds both `A` and `C` while `A`
itself embeds `C` (declaring `F`), the single-subset run emits the
implementation of `F` for `tqX0` twice — the claimed "exactly once per
subset" fails.  The sibling shape the claim cites (`X` embeds `A`, `B`; both
embed `C`) is deduplicated correctly, because there the accumulated set is
passed down into the second sibling's walk. -/
theorem printImpls_dedup_violation :
    printImpls 2 5 rtDiamond taDiamond = [("qX0", "F"), ("qX0", "F")] ∧
    (printImpls 2 5 rtDiamond taDiamond).count ("qX0", "F") = 2 ∧
    printImpls 2 5 rtDiamond taSibling = [("qX0", "F")] :=
  ⟨by decide, by decide, by decide⟩

/-! ## The type printer `typeToStr` (main.go)

`GoType` is the closed set of `go/types` shapes the printer switches on:
`Basic, Pointer, Array, Slice, Map, Chan(dir), Struct, Tuple, Signature,
Named, Interface`.  The Go default branch (`unknown type %#v`) has no
counterpart because the inductive is closed.  The printer threads the
`typeAnalysis` state because the `Named` case records imports. -/

inductive ChanDir where
  | sendRecv
  | recvOnly
  | sendOnly

inductive GoType where
  | basic (name : String)
  | pointer (elem : GoType)
  | array (len : Nat) (elem : GoType)
  | slice (elem : GoType)
  | map (key elem : GoType)
  | chan (dir : ChanDir) (elem : GoType)
  | struct
  | tuple
  | signature (params : List GoType) (variadic : Bool) (results : List GoType)
  | named (objName : String) (pkg : Option GoPkg)
  | iface

mutual

/-- `typeAnalysis.typeToStr`.  In the `Chan` case the source reads

```go
elemStr, err := ta.typeToStr(vRealType.Elem())
if err != nil {
    return "", nil
}
```

— on a failing element it returns the empty string with a `nil` error. -/
def typeToStr (ta : typeAnalysis) : GoType → Except String String × typeAnalysis
  | .basic name => (.ok name, ta)
  | .pointer elem =>
    match typeToStr ta elem with
    | (.error e, ta') => (.error e, ta')
    | (.ok elemStr, ta') => (.ok ("*" ++ elemStr), ta')
  | .array len elem =>
    match typeToStr ta elem with
    | (.error e, ta') => (.error e, ta')
    | (.ok elemStr, ta') => (.ok ("[" ++ Nat.repr len ++ "]" ++ elemStr), ta')
  | .slice elem =>
    match typeToStr ta elem with
    | (.error e, ta') => (.error e, ta')
    | (.ok elemStr, ta') => (.ok ("[]" ++ elemStr), ta')
  | .map key elem =>
    match typeToStr ta key with
    | (.error e, ta') => (.error e, ta')
    | (.ok keyStr, ta') =>
      match typeToStr ta' elem with
      | (.error e, ta'') => (.error e, ta'')
      | (.ok elemStr, ta'') => (.ok ("map[" ++ keyStr ++ "]" ++ elemStr), ta'')
  | .chan dir elem =>
    match typeToStr ta elem with
    | (.error _, ta') => (.ok "", ta')
    | (.ok elemStr, ta') =>
      match dir with
      | .sendRecv =>
        match elem with
        | .chan .recvOnly _ => (.ok ("chan (" ++ elemStr ++ ")"), ta')
        | _ => (.ok ("chan " ++ elemStr), ta')
      | .recvOnly => (.ok ("<-chan " ++ elemStr), ta')
      | .sendOnly => (.ok ("chan<- " ++ elemStr), ta')
  | .struct => (.error "bare struct types are not supported", ta)
  | .tuple => (.error "tuple types are not supported", ta)
  | .signature params variadic results =>
    match typesToStrs ta params with
    | (.error e, ta') => (.error e, ta')
    | (.ok ps, ta') =>
      let ps' := if variadic then ps.dropLast ++ ["..." ++ ps.getLast?.getD ""] else ps
      let paramsStr := "(" ++ String.intercalate ", " ps' ++ ")"
      match typesToStrs ta' results with
      | (.error e, ta'') => (.error e, ta'')
      | (.ok rs, ta'') =>
        let retStr :=
          if rs.length = 1 then rs.headD ""
          else "(" ++ String.intercalate ", " rs ++ ")"
        (.ok ("func " ++ paramsStr ++ " " ++ retStr), ta'')
  | .named objName pkgOpt =>
    match pkgOpt with
    | none => (.ok objName, ta)
    | some pkg =>
      if pkg.path = ta.thisPkgPath then (.ok objName, ta)
      else
        match ta.imports.lookup pkg.path with
        | some name =>
          (.ok ((if name ≠ "" then name else pkg.name) ++ "." ++ objName), ta)
        | none =>
          (.ok (pkg.name ++ "." ++ objName),
            { ta with imports := ta.imports ++ [(pkg.path, "")] })
  | .iface => (.error "bare interface types are not supported", ta)

/-- `tupleToTypes` / the loop of `paramTupleToTypesString`: render each
member, stopping at the first failure, threading the import state. -/
def typesToStrs (ta : typeAnalysis) : List GoType → Except String (List String) × typeAnalysis
  | [] => (.ok [], ta)
  | t :: rest =>
    match typeToStr ta t with
    | (.error e, ta') => (.error e, ta')
    | (.ok s, ta') =>
      match typesToStrs ta' rest with
      | (.error e, ta'') => (.error e, ta'')
      | (.ok ss, ta'') => (.ok (s :: ss), ta'')

end

def taFresh : typeAnalysis := ⟨"example.com/p", [], [], []⟩

/-- C3 evidence.  A bare anonymous struct, tuple or interface does fail, and
so does one nested under a slice — but the `Chan` case of `typeToStr` drops
the element's error (`return "", nil`), so a channel whose element contains
an anonymous struct, tuple or interface is *accepted* and rendered as the
empty string, which then silently propagates into enclosing types (here a
pointer rendered as just `*`).  The claim's "for every type expression whose
tree contains … at any depth (including as the element type of a channel …)
typeToStr returns an error" is false. -/
theorem typeToStr_chan_swallows_error :
    (typeToStr taFresh .struct).1 = .error "bare struct types are not supported" ∧
    (typeToStr taFresh .tuple).1 = .error "tuple types are not supported" ∧
    (typeToStr taFresh .iface).1 = .error "bare interface types are not supported" ∧
    (typeToStr taFresh (.slice .struct)).1 = .error "bare struct types are not supported" ∧
    (typeToStr taFresh (.chan .sendRecv .struct)).1 = .ok "" ∧
    (typeToStr taFresh (.chan .recvOnly .iface)).1 = .ok "" ∧
    (typeToStr taFresh (.chan .sendOnly .tuple)).1 = .ok "" ∧
    (typeToStr taFresh (.pointer (.chan .sendRecv .struct))).1 = .ok "*" :=
  ⟨rfl, rfl, rfl, rfl, rfl, rfl, rfl, rfl⟩

/-! ## Import analysis (main.go) -/

def typeAnalysis.contains (ta : typeAnalysis) (info : pkgPathAndName) : Bool :=
  (ta.typeInfo.lookup (info.pkgPath, info.typeName)).isSome

/-- `analyzeResolvedTypeForImports` — note the two early returns for builtin
types (`pkgPath == ""`) and for the local package
(`pkgPath == ta.thisPkgPath`). -/
def analyzeResolvedTypeForImports (ta : typeAnalysis) (resType : resolvedType)
    (importsMap : List (String × String)) : Except String typeAnalysis :=
  if resType.pkgPath = "" then .ok ta
  else if resType.pkgPath = ta.thisPkgPath then .ok ta
  else
    match ta.imports.lookup resType.pkgPath with
    | some overriddenName =>
      if overriddenName = "" then
        if resType.origPkgName ≠ resType.at'.pkgName then
          .error ("inconsistent imported package name for " ++ resType.pkgPath)
        else .ok ta
      else if overriddenName ≠ resType.at'.pkgName then
        .error ("inconsistent imported package name for " ++ resType.pkgPath)
      else .ok ta
    | none =>
      if resType.origPkgName ≠ resType.at'.pkgName then
        match importsMap.lookup resType.pkgPath with
        | some importName =>
          if importName ≠ resType.at'.pkgName then
            .error ("inconsistent imported package name for " ++ resType.pkgPath)
          else .ok { ta with imports := ta.imports ++ [(resType.pkgPath, resType.at'.pkgName)] }
        | none => .ok { ta with imports := ta.imports ++ [(resType.pkgPath, resType.at'.pkgName)] }
      else
        match importsMap.lookup resType.pkgPath with
        | some importName =>
          if importName ≠ resType.origPkgName then
            .error ("inconsistent imported package name for " ++ resType.pkgPath)
          else .ok { ta with imports := ta.imports ++ [(resType.pkgPath, "")] }
        | none => .ok { ta with imports := ta.imports ++ [(resType.pkgPath, "")] }

/-- `analyzeEmbeddedTypes`.  For each embedded entry that is a named type
owned by a package, the source probes `ta.imports[pkgPath]` and, when the
path is absent, stores `ta.imports[pkgPath] = ""` — with **no** comparison
against `ta.thisPkgPath` (unlike `analyzeResolvedTypeForImports` and the
`Named` case of `typeToStr`).  Unknown interfaces are appended to the work
queue. -/
def analyzeEmbeddedTypes (ta : typeAnalysis) :
    List GoIfaceEmb → Except String (List pkgPathAndName × typeAnalysis)
  | [] => .ok ([], ta)
  | et :: rest =>
    match et with
    | .notNamed => .error "embedded type is not an named type"
    | .named objName pkgOpt under =>
      let step : String × String × typeAnalysis :=
        match pkgOpt with
        | none => ("", "", ta)
        | some pkg =>
          match ta.imports.lookup pkg.path with
          | some name =>
            ((if name ≠ "" then name else pkg.name), pkg.path, ta)
          | none =>
            (pkg.name, pkg.path, { ta with imports := ta.imports ++ [(pkg.path, "")] })
      let eat : aType := ⟨step.1, objName⟩
      let pkgPath := step.2.1
      let ta1 := step.2.2
      let info : pkgPathAndName := ⟨pkgPath, objName⟩
      if ta1.contains info then
        match analyzeEmbeddedTypes ta1 rest with
        | .error e => .error e
        | .ok (infos, ta') => .ok (info :: infos, ta')
      else
        match under with
        | none => .error ("embedded type " ++ eat.String ++ " is not a named interface type")
        | some ui =>
          let ta2 := { ta1 with typeQueue := ta1.typeQueue ++ [(info, ui)] }
          match analyzeEmbeddedTypes ta2 rest with
          | .error e => .error e
          | .ok (infos, ta') => .ok (info :: infos, ta')

/-- C4 evidence.  Analysing an interface that embeds the locally defined
interface `A` (package path `example.com/p` equal to `thisPkgPath`) makes
`analyzeEmbeddedTypes` insert the local package's path into the import
table, violating invariant I3; the other two cited sites do keep the
invariant on the same shapes (`analyzeResolvedTypeForImports` skips a local
resolved type, `typeToStr` skips a local named type). -/
theorem analyzeEmbeddedTypes_inserts_local_path :
    taFresh.thisPkgPath = "example.com/p" ∧
    ((analyzeEmbeddedTypes taFresh
        [.named "A" (some ⟨"p", "example.com/p"⟩) (some [])]).map
      fun r => r.2.imports.lookup "example.com/p") = .ok (some "") ∧
    analyzeResolvedTypeForImports taFresh ⟨⟨"", "B"⟩, "p", "example.com/p"⟩ [] =
      .ok taFresh ∧
    (typeToStr taFresh (.named "A" (some ⟨"p", "example.com/p"⟩))).2.imports = [] :=
  ⟨rfl, rfl, rfl, rfl⟩

/-! ## Parameter-name generation (main.go)

`generateName` synthesises `param<idx>` for an anonymous parameter and, on a
collision with an already-used name, multiplies `idx` by ten until the name
is fresh:

```go
func generateName(names StringSet, name string, idx int) string {
    if name == "" {
        name = fmt.Sprintf("param%d", idx)
    }
    for names.Has(name) {
        idx *= 10
        name = fmt.Sprintf("param%d", idx)
    }
    names.Add(name)
    return name
}
```

The unbounded `for` is modeled with fuel `names.length + 2`, proven
sufficient: for `idx ≥ 1` the successive candidates `param<idx·10^j>` have
strictly growing decimal length, so at most `names.length` of them can be
blocked; for `idx = 0` the call site guarantees `names` is still empty.
The length argument needs the digit-length of `Nat.repr`, established first. -/

theorem toDigitsCore_length_log : ∀ f n, n < f →
    (Nat.toDigitsCore 10 f n []).length = Nat.log 10 n + 1
  | 0, n, h => absurd h (Nat.not_lt_zero n)
  | f + 1, n, h => by
    by_cases h10 : n / 10 = 0
    · have hn : n < 10 := by
        by_contra hge
        rw [Nat.div_eq_zero_iff (by norm_num)] at h10
        omega
      simp only [Nat.toDigitsCore, h10, if_pos]
      rw [show Nat.log 10 n = 0 from Nat.log_eq_zero_iff.mpr (Or.inl hn)]
      rfl
    · have hge : 10 ≤ n := by
        by_contra hlt
        exact h10 (Nat.div_eq_of_lt (by omega))
      simp only [Nat.toDigitsCore, h10, if_neg, if_false]
      rw [Nat.toDigitsCore_lens_eq,
        toDigitsCore_length_log f (n / 10)
          (lt_of_lt_of_le (Nat.div_lt_self (by omega) (by norm_num)) (by omega)),
        Nat.log_div_base]
      have := Nat.log_pos (b := 10) (by norm_num) hge
      omega

theorem repr_length_eq (n : Nat) : (Nat.repr n).length = Nat.log 10 n + 1 :=
  toDigitsCore_length_log (n + 1) n (Nat.lt_succ_self n)

theorem log_mul_pow {idx : Nat} (h : 1 ≤ idx) :
    ∀ j, Nat.log 10 (idx * 10 ^ j) = Nat.log 10 idx + j
  | 0 => by simp
  | j + 1 => by
    rw [pow_succ, ← Nat.mul_assoc,
      Nat.log_mul_base (by norm_num) (by positivity), log_mul_pow h j]
    omega

theorem paramName_inj {idx : Nat} (h : 1 ≤ idx) {j j' : Nat}
    (he : "param" ++ Nat.repr (idx * 10 ^ j) = "param" ++ Nat.repr (idx * 10 ^ j')) :
    j = j' := by
  have hl := congrArg String.length he
  rw [String.length_append, String.length_append, repr_length_eq, repr_length_eq,
    log_mul_pow h j, log_mul_pow h j'] at hl
  omega

/-- The `for names.Has(name) { idx *= 10; name = … }` loop; returns the fresh
name together with the final `idx`, or `none` on fuel exhaustion. -/
def generateNameLoop (names : StringSet) : Nat → String → Nat → Option (String × Nat)
  | 0, _, _ => none
  | f + 1, name, idx =>
    if names.Has name then
      generateNameLoop names f ("param" ++ Nat.repr (idx * 10)) (idx * 10)
    else
      some (name, idx)

theorem generateNameLoop_none_has {names : StringSet} {f : Nat} {name : String} {idx : Nat}
    (h : generateNameLoop names (f + 1) name idx = none) : names.Has name = true := by
  by_cases hh : names.Has name
  · exact hh
  · rw [generateNameLoop, if_neg hh] at h
    exact absurd h (by simp)

theorem generateNameLoop_none_mem (names : StringSet) :
    ∀ f idx name, generateNameLoop names f name idx = none →
      ∀ j, 1 ≤ j → j + 1 ≤ f → ("param" ++ Nat.repr (idx * 10 ^ j)) ∈ names
  | 0, _, _, _, _, hj1, hjf => absurd hjf (by omega)
  | f + 1, idx, name, hnone, j, hj1, hjf => by
    have hhas : names.Has name = true := generateNameLoop_none_has hnone
    have hrec : generateNameLoop names f ("param" ++ Nat.repr (idx * 10)) (idx * 10) = none := by
      rwa [generateNameLoop, if_pos hhas] at hnone
    rcases Nat.lt_or_ge j 2 with hj2 | hj2
    · obtain rfl : j = 1 := by omega
      obtain ⟨f', rfl⟩ : ∃ f', f = f' + 1 := ⟨f - 1, by omega⟩
      have := generateNameLoop_none_has hrec
      simpa [StringSet.Has, pow_one] using this
    · obtain ⟨j', rfl⟩ : ∃ j', j = j' + 1 := ⟨j - 1, by omega⟩
      have := generateNameLoop_none_mem names f (idx * 10)
        ("param" ++ Nat.repr (idx * 10)) hrec j' (by omega) (by omega)
      rwa [show idx * 10 * 10 ^ j' = idx * 10 ^ (j' + 1) from by ring] at this

theorem generateNameLoop_some_of (names : StringSet) (name : String) (idx : Nat)
    (hidx : 1 ≤ idx) : generateNameLoop names (names.length + 2) name idx ≠ none := by
  intro hnone
  have hnd : ((List.range' 1 (names.length + 1)).map
      fun j => "param" ++ Nat.repr (idx * 10 ^ j)).Nodup :=
    List.Nodup.map_on (fun x _ y _ he => paramName_inj hidx he)
      (List.nodup_range' 1 (names.length + 1))
  have hsub : ((List.range' 1 (names.length + 1)).map
      fun j => "param" ++ Nat.repr (idx * 10 ^ j)) ⊆ names := by
    intro s hs
    simp only [List.mem_map, List.mem_range'_1] at hs
    obtain ⟨j, ⟨hj1, hjK⟩, rfl⟩ := hs
    exact generateNameLoop_none_mem names (names.length + 2) idx name hnone j hj1 (by omega)
  have hle := (List.subperm_of_subset hnd hsub).length_le
  simp only [List.length_map, List.length_range'] at hle
  omega

theorem generateNameLoop_some_spec (names : StringSet) :
    ∀ f name idx out, generateNameLoop names f name idx = some out →
      names.Has out.1 = false ∧
      (out.1 = name ∨ ∃ j, 1 ≤ j ∧ out.1 = "param" ++ Nat.repr (idx * 10 ^ j))
  | 0, _, _, _, h => absurd h (by simp [generateNameLoop])
  | f + 1, name, idx, out, h => by
    by_cases hh : names.Has name
    · rw [generateNameLoop, if_pos hh] at h
      obtain ⟨hfresh, hform⟩ := generateNameLoop_some_spec names f _ _ out h
      refine ⟨hfresh, Or.inr ?_⟩
      rcases hform with heq | ⟨j, hj1, heq⟩
      · exact ⟨1, Nat.le_refl 1, by simpa [pow_one] using heq⟩
      · exact ⟨j + 1, by omega, by rwa [show idx * 10 ^ (j + 1) = idx * 10 * 10 ^ j from by ring]⟩
    · rw [generateNameLoop, if_neg hh] at h
      obtain rfl : out = (name, idx) := by simpa using h.symm
      exact ⟨by simpa using hh, Or.inl rfl⟩

/-- `generateName` with the proven-sufficient fuel; returns the chosen name
and the updated `names` set (the Go map is mutated through the reference). -/
def generateName (names : StringSet) (name : String) (idx : Nat) :
    Option (String × StringSet) :=
  let name0 := if name = "" then "param" ++ Nat.repr idx else name
  match generateNameLoop names (names.length + 2) name0 idx with
  | none => none
  | some out => some (out.1, names.Add out.1)

theorem StringSet.Add_of_has_false {s : StringSet} {x : String} (h : s.Has x = false) :
    s.Add x = x :: s := by
  have hx : x ∉ s := by simpa [StringSet.Has] using h
  simp [StringSet.Add, hx]

theorem generateName_some (names : StringSet) (name : String) (idx : Nat)
    (h : 1 ≤ idx ∨ names = []) :
    ∃ nm, generateName names name idx = some (nm, names.Add nm) ∧
      names.Has nm = false ∧
      (name = "" → ∃ j, nm = "param" ++ Nat.repr (idx * 10 ^ j)) := by
  rcases h with hidx | hempty
  · rcases hloop : generateNameLoop names (names.length + 2)
        (if name = "" then "param" ++ Nat.repr idx else name) idx with _ | out
    · exact absurd hloop (generateNameLoop_some_of names _ idx hidx)
    · obtain ⟨hfresh, hform⟩ := generateNameLoop_some_spec names _ _ _ out hloop
      refine ⟨out.1, ?_, hfresh, ?_⟩
      · rw [generateName]
        rw [hloop]
      · intro hname
        rcases hform with heq | ⟨j, _, heq⟩
        · exact ⟨0, by simpa [hname, pow_zero] using heq⟩
        · exact ⟨j, heq⟩
  · subst hempty
    have hloop : generateNameLoop [] 2
        (if name = "" then "param" ++ Nat.repr idx else name) idx =
        some ((if name = "" then "param" ++ Nat.repr idx else name), idx) := by
      rw [generateNameLoop, if_neg (by simp [StringSet.Has])]
    refine ⟨(if name = "" then "param" ++ Nat.repr idx else name), ?_, by simp [StringSet.Has], ?_⟩
    · rw [generateName]
      rw [show ([] : StringSet).length + 2 = 2 from rfl, hloop]
    · intro hname
      exact ⟨0, by simp [hname, pow_zero]⟩

/-- The exact sequence of `generateName(names, e.name, idx)` calls both
`parametersFull.String` and `parametersNames.String` drive over a fresh
`names` set, collecting the generated names in parameter order. -/
def generateNamesSeq (names : StringSet) (idx : Nat) :
    List parameterInfo → Option (List String)
  | [] => some []
  | e :: rest =>
    match generateName names e.name idx with
    | none => none
    | some (nm, names') =>
      match generateNamesSeq names' (idx + 1) rest with
      | none => none
      | some nms => some (nm :: nms)

/-- `parametersFull.String`: each parameter rendered `<name> <type>`,
comma-joined. -/
def parametersFullString (p : List parameterInfo) : Option String :=
  (generateNamesSeq [] 0 p).map fun nms =>
    String.intercalate ", " ((nms.zip p).map fun pr => pr.1 ++ " " ++ pr.2.typeStr)

/-- `parametersNames.String`: the bare generated names, comma-joined. -/
def parametersNamesString (p : List parameterInfo) : Option String :=
  (generateNamesSeq [] 0 p).map fun nms => String.intercalate ", " nms

theorem generateNamesSeq_spec : ∀ (p : List parameterInfo) (names : StringSet) (idx : Nat),
    (1 ≤ idx ∨ names = []) →
    ∃ nms, generateNamesSeq names idx p = some nms ∧
      nms.length = p.length ∧
      nms.Nodup ∧
      (∀ nm ∈ nms, names.Has nm = false) ∧
      ∀ i, i < p.length → (p.getD i ⟨"", ""⟩).name = "" →
        ∃ j, nms.getD i "" = "param" ++ Nat.repr ((idx + i) * 10 ^ j)
  | [], names, idx, _ => ⟨[], rfl, rfl, List.nodup_nil, by simp, fun i hi => absurd hi (by simp)⟩
  | e :: rest, names, idx, h => by
    obtain ⟨nm, hgen, hfresh, hform⟩ := generateName_some names e.name idx h
    obtain ⟨nms, hseq, hlen, hnd, hfr, hpos⟩ :=
      generateNamesSeq_spec rest (names.Add nm) (idx + 1) (Or.inl (by omega))
    have hAdd := StringSet.Add_of_has_false hfresh
    refine ⟨nm :: nms, ?_, by simp [hlen], ?_, ?_, ?_⟩
    · rw [generateNamesSeq, hgen]
      show (match generateNamesSeq (names.Add nm) (idx + 1) rest with
        | none => none
        | some nms => some (nm :: nms)) = some (nm :: nms)
      rw [hseq]
    · rw [List.nodup_cons]
      refine ⟨fun hmem => ?_, hnd⟩
      have := hfr nm hmem
      rw [hAdd] at this
      simp [StringSet.Has] at this
    · intro x hx
      rcases List.mem_cons.1 hx with rfl | hx'
      · exact hfresh
      · have := hfr x hx'
        rw [hAdd] at this
        simp only [StringSet.Has, List.contains_cons] at this
        simp only [StringSet.Has]
        cases hc : names.contains x
        · rfl
        · rw [hc] at this
          simp at this
    · intro i hi hname
      cases i with
      | zero =>
        obtain ⟨j, hj⟩ := hform (by simpa using hname)
        exact ⟨j, by simpa using hj⟩
      | succ i' =>
        obtain ⟨j, hj⟩ := hpos i' (by simpa using hi) (by simpa using hname)
        refine ⟨j, ?_⟩
        simpa [show idx + 1 + i' = idx + (i' + 1) from by omega] using hj

/-- C5.  For every method parameter list, the name-generation sequence
terminates (the modeled fuel never runs out), both `parametersFull.String`
and `parametersNames.String` succeed, the generated names are pairwise
distinct within the method, and every anonymous parameter at position `idx`
receives a name `param<idx·10^j>` — the synthesised base `param<idx>`
multiplied by ten as often as needed to miss the names already used. -/
theorem paramNames_terminate_distinct (p : List parameterInfo) :
    ∃ nms, generateNamesSeq [] 0 p = some nms ∧
      nms.length = p.length ∧
      nms.Nodup ∧
      parametersFullString p ≠ none ∧
      parametersNamesString p ≠ none ∧
      ∀ i, i < p.length → (p.getD i ⟨"", ""⟩).name = "" →
        ∃ j, nms.getD i "" = "param" ++ Nat.repr (i * 10 ^ j) := by
  obtain ⟨nms, hseq, hlen, hnd, _, hpos⟩ :=
    generateNamesSeq_spec p [] 0 (Or.inr rfl)
  refine ⟨nms, hseq, hlen, hnd, ?_, ?_, fun i hi hname => by
    simpa using hpos i hi hname⟩
  · simp [parametersFullString, hseq]
  · simp [parametersNamesString, hseq]

/-- Witness for C5 on a concrete parameter list in which the second,
anonymous parameter collides with the explicit name `param1` and is renamed
`param10`. -/
theorem paramNames_terminate_distinct_witness :
    (∃ nms, generateNamesSeq [] 0 [⟨"param1", "int"⟩, ⟨"", "string"⟩] = some nms ∧
      nms.length = ([⟨"param1", "int"⟩, ⟨"", "string"⟩] : List parameterInfo).length ∧
      nms.Nodup ∧
      parametersFullString [⟨"param1", "int"⟩, ⟨"", "string"⟩] ≠ none ∧
      parametersNamesString [⟨"param1", "int"⟩, ⟨"", "string"⟩] ≠ none ∧
      ∀ i, i < ([⟨"param1", "int"⟩, ⟨"", "string"⟩] : List parameterInfo).length →
        (([⟨"param1", "int"⟩, ⟨"", "string"⟩] : List parameterInfo).getD i ⟨"", ""⟩).name = "" →
        ∃ j, nms.getD i "" = "param" ++ Nat.repr (i * 10 ^ j)) ∧
    generateNamesSeq [] 0 [⟨"param1", "int"⟩, ⟨"", "string"⟩] = some ["param1", "param10"] ∧
    parametersFullString [⟨"param1", "int"⟩, ⟨"", "string"⟩] = some "param1 int, param10 string" :=
  ⟨paramNames_terminate_distinct [⟨"param1", "int"⟩, ⟨"", "string"⟩], rfl, rfl⟩

/-! ## The imports section (main.go)

`printImports` collects the keys of the `ta.imports` map (Go map iteration:
an unspecified order — the association-list order here), sorts them, and
emits one line per entry.  `%q` is modeled as plain quoting (`goQuote`);
`sort.Strings` by a sorting function on `≤` (`insertionSort`, whose whole
observable contract — a `≤`-sorted permutation — is what `sort.Strings`
guarantees).  The emitted text is the list of `Fprintf` chunks in order. -/

def goQuote (s : String) : String := "\"" ++ s ++ "\""

def printImports (ta : typeAnalysis) : List String :=
  let sortedImports := List.insertionSort (· ≤ ·) (ta.imports.map Prod.fst)
  ["import (\n"] ++
    (sortedImports.map fun pkgPath =>
      match ta.imports.lookup pkgPath with
      | none => "BUG: corrupted imports\n"
      | some name =>
        if name ≠ "" then "\t" ++ name ++ " " ++ goQuote pkgPath ++ "\n"
        else "\t" ++ goQuote pkgPath ++ "\n") ++
    [")\n"]

theorem lookup_perm_of_nodupKeys {l₁ l₂ : List (String × String)} (h : l₁.Perm l₂) :
    ∀ p, (l₁.map Prod.fst).Nodup → l₁.lookup p = l₂.lookup p := by
  induction h with
  | nil => exact fun _ _ => rfl
  | cons x h' ih =>
    rcases x with ⟨k, v⟩
    intro p hnd
    simp only [List.map_cons, List.nodup_cons] at hnd
    simp only [List.lookup_cons]
    cases p == k
    · exact ih p hnd.2
    · rfl
  | swap x y t =>
    rcases x with ⟨k, v⟩
    rcases y with ⟨k', v'⟩
    intro p hnd
    simp only [List.map_cons, List.nodup_cons, List.mem_cons] at hnd
    have hkk : k' ≠ k := fun he => hnd.1 (Or.inl he)
    simp only [List.lookup_cons]
    cases hpk : p == k <;> cases hpk' : p == k'
    · rfl
    · rfl
    · rfl
    · exact absurd (by rw [← beq_iff_eq.mp hpk, beq_iff_eq.mp hpk']) hkk
  | trans h₁ h₂ ih₁ ih₂ =>
    intro p hnd
    rw [ih₁ p hnd, ih₂ p (((h₁.map Prod.fst).nodup_iff).mp hnd)]

theorem lookup_of_mem_of_nodupKeys :
    ∀ {l : List (String × String)} {p a : String},
      (l.map Prod.fst).Nodup → (p, a) ∈ l → l.lookup p = some a := by
  intro l
  induction l with
  | nil => simp
  | cons x t ih =>
    rcases x with ⟨k, v⟩
    intro p a hnd hmem
    simp only [List.map_cons, List.nodup_cons] at hnd
    rw [List.lookup_cons]
    rcases List.mem_cons.1 hmem with heq | hmem'
    · obtain ⟨rfl, rfl⟩ : p = k ∧ a = v := by simpa [Prod.ext_iff] using heq
      simp
    · cases hpk : p == k
      · exact ih hnd.2 hmem'
      · exact absurd (beq_iff_eq.mp hpk ▸ List.mem_map_of_mem Prod.fst hmem') hnd.1

/-- C7.  For every populated import table with (map-guaranteed) distinct
keys: the emitted imports section lists exactly one line per entry between
the `import (` and `)` frames; the paths are traversed in ascending sorted
order (a sorted permutation of the key set); each entry is rendered
`\t<alias> "<path>"\n` when its recorded alias is non-empty and
`\t"<path>"\n` otherwise; and the output is invariant under the map's
iteration order, so identical runs produce identical sections. -/
theorem printImports_sorted_deterministic (ta ta' : typeAnalysis)
    (hnd : (ta.imports.map Prod.fst).Nodup)
    (hperm : ta.imports.Perm ta'.imports) :
    printImports ta = printImports ta' ∧
    List.Sorted (· ≤ ·) (List.insertionSort (· ≤ ·) (ta.imports.map Prod.fst)) ∧
    (List.insertionSort (· ≤ ·) (ta.imports.map Prod.fst)).Perm (ta.imports.map Prod.fst) ∧
    (printImports ta).length = ta.imports.length + 2 ∧
    ∀ pr ∈ ta.imports,
      (if pr.2 ≠ "" then "\t" ++ pr.2 ++ " " ++ goQuote pr.1 ++ "\n"
       else "\t" ++ goQuote pr.1 ++ "\n") ∈ printImports ta := by
  refine ⟨?_, List.sorted_insertionSort _ _, List.perm_insertionSort _ _, ?_, ?_⟩
  · have hkeys : List.insertionSort (· ≤ ·) (ta.imports.map Prod.fst) =
        List.insertionSort (· ≤ ·) (ta'.imports.map Prod.fst) :=
      List.eq_of_perm_of_sorted
        (((List.perm_insertionSort _ _).trans (hperm.map Prod.fst)).trans
          (List.perm_insertionSort _ _).symm)
        (List.sorted_insertionSort _ _) (List.sorted_insertionSort _ _)
    simp only [printImports, hkeys]
    have hlook : ∀ p, ta.imports.lookup p = ta'.imports.lookup p :=
      fun p => lookup_perm_of_nodupKeys hperm p hnd
    rw [List.map_congr_left fun p _ => by rw [hlook p]]
  · simp only [printImports, List.length_append, List.length_map, List.length_singleton,
      (List.perm_insertionSort (· ≤ ·) (ta.imports.map Prod.fst)).length_eq, List.length_map]
    omega
  · intro pr hpr
    rcases pr with ⟨p, a⟩
    have hp : p ∈ List.insertionSort (· ≤ ·) (ta.imports.map Prod.fst) :=
      ((List.perm_insertionSort _ _).mem_iff).mpr (List.mem_map_of_mem Prod.fst hpr)
    simp only [printImports]
    refine List.mem_append.mpr (Or.inl (List.mem_append.mpr (Or.inr ?_)))
    refine List.mem_map.mpr ⟨p, hp, ?_⟩
    rw [lookup_of_mem_of_nodupKeys hnd hpr]

def taImp : typeAnalysis :=
  ⟨"example.com/w",
   [("database/sql/driver", "driver"), ("z/pkg", ""), ("a/b", "")], [], []⟩

def taImp' : typeAnalysis :=
  ⟨"example.com/w",
   [("a/b", ""), ("database/sql/driver", "driver"), ("z/pkg", "")], [], []⟩

/-- Witness for C7 on a three-entry table and a reordering of it. -/
theorem printImports_sorted_deterministic_witness :
    ((taImp.imports.map Prod.fst).Nodup ∧ taImp.imports.Perm taImp'.imports) ∧
      (printImports taImp = printImports taImp' ∧
        List.Sorted (· ≤ ·) (List.insertionSort (· ≤ ·) (taImp.imports.map Prod.fst)) ∧
        (List.insertionSort (· ≤ ·) (taImp.imports.map Prod.fst)).Perm
          (taImp.imports.map Prod.fst) ∧
        (printImports taImp).length = taImp.imports.length + 2 ∧
        ∀ pr ∈ taImp.imports,
          (if pr.2 ≠ "" then "\t" ++ pr.2 ++ " " ++ goQuote pr.1 ++ "\n"
           else "\t" ++ goQuote pr.1 ++ "\n") ∈ printImports taImp) :=
  ⟨⟨by decide, by decide⟩,
    printImports_sorted_deterministic taImp taImp' (by decide) (by decide)⟩

/-! ## Input validation (main.go)

`isValidFunctionName` checks Go string bytes; ASCII range checks on the
bytes and on the decoded characters agree (every byte of a multi-byte UTF-8
character is `≥ 0x80` and fails each range on either reading), so the model
checks `Char`s.  `strings.Split` with the single-character separators the
program uses (`.`, `,`, `;`) is modeled by `goSplit`. -/

/-- The byte-scanning loop of `isValidFunctionName` from index 1 on. -/
def isValidTailChars : List Char → Bool
  | [] => true
  | c :: rest =>
    if (c < 'A' ∨ 'Z' < c) ∧ (c < 'a' ∨ 'z' < c) ∧ (c < '0' ∨ '9' < c) ∧ c ≠ '_' then false
    else isValidTailChars rest

def isValidFunctionName (s : String) : Bool :=
  match s.data with
  | [] => false
  | c :: rest =>
    if (c < 'A' ∨ 'Z' < c) ∧ (c < 'a' ∨ 'z' < c) ∧ c ≠ '_' then false
    else isValidTailChars rest

/-- The claim's wording: non-empty, first character in `[A-Za-z_]`, every
subsequent character in `[A-Za-z0-9_]`. -/
def validIdentSpec (s : String) : Prop :=
  match s.data with
  | [] => False
  | c :: rest =>
    (('A' ≤ c ∧ c ≤ 'Z') ∨ ('a' ≤ c ∧ c ≤ 'z') ∨ c = '_') ∧
    ∀ c' ∈ rest,
      ('A' ≤ c' ∧ c' ≤ 'Z') ∨ ('a' ≤ c' ∧ c' ≤ 'z') ∨ ('0' ≤ c' ∧ c' ≤ '9') ∨ c' = '_'

theorem tail_char_cond_iff (c : Char) :
    ¬ ((c < 'A' ∨ 'Z' < c) ∧ (c < 'a' ∨ 'z' < c) ∧ (c < '0' ∨ '9' < c) ∧ c ≠ '_') ↔
    (('A' ≤ c ∧ c ≤ 'Z') ∨ ('a' ≤ c ∧ c ≤ 'z') ∨ ('0' ≤ c ∧ c ≤ '9') ∨ c = '_') := by
  simp only [not_and_or, not_or, not_lt, not_not]

theorem head_char_cond_iff (c : Char) :
    ¬ ((c < 'A' ∨ 'Z' < c) ∧ (c < 'a' ∨ 'z' < c) ∧ c ≠ '_') ↔
    (('A' ≤ c ∧ c ≤ 'Z') ∨ ('a' ≤ c ∧ c ≤ 'z') ∨ c = '_') := by
  simp only [not_and_or, not_or, not_lt, not_not]

theorem isValidTailChars_iff : ∀ l : List Char, isValidTailChars l = true ↔
    ∀ c ∈ l, ('A' ≤ c ∧ c ≤ 'Z') ∨ ('a' ≤ c ∧ c ≤ 'z') ∨ ('0' ≤ c ∧ c ≤ '9') ∨ c = '_'
  | [] => by simp [isValidTailChars]
  | c :: rest => by
    rw [isValidTailChars]
    by_cases hc : (c < 'A' ∨ 'Z' < c) ∧ (c < 'a' ∨ 'z' < c) ∧ (c < '0' ∨ '9' < c) ∧ c ≠ '_'
    · rw [if_pos hc]
      simp only [Bool.false_eq_true, false_iff]
      intro hall
      exact (tail_char_cond_iff c).mpr (hall c (by simp)) hc
    · rw [if_neg hc, isValidTailChars_iff rest]
      constructor
      · intro h c' hc'
        rcases List.mem_cons.1 hc' with rfl | hmem
        · exact (tail_char_cond_iff c').mp hc
        · exact h c' hmem
      · exact fun h c' hc' => h c' (List.mem_cons_of_mem c hc')

theorem isValidFunctionName_iff (s : String) :
    isValidFunctionName s = true ↔ validIdentSpec s := by
  unfold isValidFunctionName validIdentSpec
  rcases hs : s.data with _ | ⟨c, rest⟩
  · simp
  · show (if (c < 'A' ∨ 'Z' < c) ∧ (c < 'a' ∨ 'z' < c) ∧ c ≠ '_' then false
        else isValidTailChars rest) = true ↔
      (('A' ≤ c ∧ c ≤ 'Z') ∨ ('a' ≤ c ∧ c ≤ 'z') ∨ c = '_') ∧
      ∀ c' ∈ rest,
        ('A' ≤ c' ∧ c' ≤ 'Z') ∨ ('a' ≤ c' ∧ c' ≤ 'z') ∨ ('0' ≤ c' ∧ c' ≤ '9') ∨ c' = '_'
    by_cases hc : (c < 'A' ∨ 'Z' < c) ∧ (c < 'a' ∨ 'z' < c) ∧ c ≠ '_'
    · rw [if_pos hc]
      simp only [Bool.false_eq_true, false_iff, not_and]
      intro hhead
      exact absurd ((head_char_cond_iff c).mpr hhead) (not_not.mpr hc)
    · rw [if_neg hc, isValidTailChars_iff rest]
      exact (and_iff_right ((head_char_cond_iff c).mp hc)).symm

/-! ## Input parsing (`parsedInput.parseInput`, main.go)

External collaborators are oracles: `parseExpr` stands for
`parser.ParseExpr`, `isAbs`/`absPath` for `filepath.IsAbs`/`filepath.Abs`,
`dirJoin` for `filepath.Join(filepath.Dir(inFile), ·)`.  The theorems hold
for every choice of oracles.  (The Go field `prefix` is spelled `pfx`.) -/

/-- `strings.Split` for the single-character separators used here. -/
def splitCharList (sep : Char) : List Char → List (List Char)
  | [] => [[]]
  | c :: rest =>
    let r := splitCharList sep rest
    if c = sep then [] :: r
    else
      match r with
      | [] => [[c]]
      | h :: t => (c :: h) :: t

def goSplit (sep : Char) (s : String) : List String :=
  (splitCharList sep s.data).map fun l => ⟨l⟩

structure anImport where
  name : String
  path : String

def strToAType (s : String) : Except String aType :=
  if s = "" then .error "empty type string"
  else
    match goSplit '.' s with
    | [_] => .ok ⟨"", s⟩
    | [p1, p2] =>
      if p1 = "" then .error ("empty package name in " ++ s)
      else if p2 = "" then .error ("empty type name in " ++ s)
      else .ok ⟨p1, p2⟩
    | _ => .error ("malformed type " ++ s ++ ", expected a string like int or driver.Driver")

def strToAnImport (s : String) : Except String anImport :=
  if s = "" then .error "empty import string"
  else
    match goSplit ',' s with
    | [_] => .ok ⟨"", s⟩
    | [p1, p2] =>
      if p1 = "" then .error ("empty import name in " ++ s)
      else if p2 = "" then .error ("empty import path in " ++ s)
      else .ok ⟨p1, p2⟩
    | _ => .error ("malformed import string " ++ s)

def strToExtraField (parseExpr : String → Except String Unit) (s : String) :
    Except String extraField :=
  if s = "" then .error "empty extra field string"
  else
    match goSplit ',' s with
    | [p1, p2] =>
      match parseExpr p2 with
      | .error e => .error ("failed to get an AST for extra field " ++ s ++ ": " ++ e)
      | .ok _ => .ok ⟨p1, p2⟩
    | _ => .error ("expected a comma-separated name-type pair for an extra field (" ++ s ++ ")")

structure flagsInput where
  inFile : String
  outFile : String
  baseType : String
  extTypes : String
  extraFields : String
  imports : String
  pfx : String
  newFuncName : String

structure parsedInput where
  baseType : aType
  extTypes : List aType
  extraFields : List extraField
  imports : List anImport
  inFile : String
  outFile : String
  pfx : String
  newFuncName : String

def parseATypeList : List String → Except String (List aType)
  | [] => .ok []
  | s :: rest =>
    match strToAType s with
    | .error e => .error ("failed to get an extension type from input parameter " ++ s ++ ": " ++ e)
    | .ok t =>
      match parseATypeList rest with
      | .error e => .error e
      | .ok ts => .ok (t :: ts)

def parseExtraFieldList (parseExpr : String → Except String Unit) :
    List String → Except String (List extraField)
  | [] => .ok []
  | s :: rest =>
    match strToExtraField parseExpr s with
    | .error e => .error ("failed to get an extra field from input parameter " ++ s ++ ": " ++ e)
    | .ok f =>
      match parseExtraFieldList parseExpr rest with
      | .error e => .error e
      | .ok fs => .ok (f :: fs)

def parseImportList : List String → Except String (List anImport)
  | [] => .ok []
  | s :: rest =>
    match strToAnImport s with
    | .error e => .error ("failed to get an import from input parameter " ++ s ++ ": " ++ e)
    | .ok i =>
      match parseImportList rest with
      | .error e => .error e
      | .ok is' => .ok (i :: is')

def parseInput (parseExpr : String → Except String Unit) (isAbs : String → Bool)
    (absPath : String → Except String String) (dirJoin : String → String → String)
    (fi : flagsInput) : Except String parsedInput :=
  match strToAType fi.baseType with
  | .error e => .error ("failed to get base type from input parameter " ++ fi.baseType ++ ": " ++ e)
  | .ok baseType =>
    match (if fi.extTypes ≠ "" then parseATypeList (goSplit ';' fi.extTypes) else .ok []) with
    | .error e => .error e
    | .ok extTypes =>
      match (if fi.extraFields ≠ "" then
          parseExtraFieldList parseExpr (goSplit ';' fi.extraFields) else .ok []) with
      | .error e => .error e
      | .ok extraFields =>
        match (if fi.imports ≠ "" then parseImportList (goSplit ';' fi.imports) else .ok []) with
        | .error e => .error e
        | .ok imports =>
          match (if isAbs fi.inFile then .ok fi.inFile else absPath fi.inFile) with
          | .error e =>
            .error ("failed to get an absolute path of the infile " ++ fi.inFile ++ ": " ++ e)
          | .ok inFile =>
            let outFile := if fi.outFile ≠ "" then fi.outFile
              else dirJoin inFile (baseType.StringNoDot ++ "_wrappers.go").toLower
            if ! isValidFunctionName fi.pfx then
              .error ("prefix " ++ fi.pfx ++ " is invalid")
            else if ! isValidFunctionName fi.newFuncName then
              .error ("function name " ++ fi.newFuncName ++ " is invalid")
            else
              .ok ⟨baseType, extTypes, extraFields, imports, inFile, outFile,
                fi.pfx, fi.newFuncName⟩

/-- C8.  The identifier validator accepts exactly the strings the claim
describes, and whenever `parseInput` succeeds, both the prefix and the
constructor name passed that validator — so an invalid prefix or constructor
name makes the driver reject the input, whatever the external parsing /
filesystem collaborators do. -/
theorem isValidFunctionName_spec :
    (∀ s, isValidFunctionName s = true ↔ validIdentSpec s) ∧
    ∀ (parseExpr : String → Except String Unit) (isAbs : String → Bool)
      (absPath : String → Except String String) (dirJoin : String → String → String)
      (fi : flagsInput) (pi : parsedInput),
      parseInput parseExpr isAbs absPath dirJoin fi = .ok pi →
      isValidFunctionName fi.pfx = true ∧ isValidFunctionName fi.newFuncName = true := by
  refine ⟨isValidFunctionName_iff, ?_⟩
  intro parseExpr isAbs absPath dirJoin fi pi h
  rw [parseInput] at h
  repeat' split at h
  all_goals try simp at h
  all_goals
    rename_i hpfx hnew
    refine ⟨by simpa using hpfx, by simpa using hnew⟩

def fiConn : flagsInput :=
  ⟨"/w/in.go", "out.go", "driver.Conn", "", "", "", "realDC", "newConn"⟩

/-- Witness for C8: a concrete successful parse, from which the theorem
yields that both identifiers are valid. -/
theorem isValidFunctionName_spec_witness :
    (isValidFunctionName "newConn" = true ↔ validIdentSpec "newConn") ∧
    (isValidFunctionName fiConn.pfx = true ∧ isValidFunctionName fiConn.newFuncName = true) :=
  ⟨isValidFunctionName_spec.1 "newConn",
    isValidFunctionName_spec.2 (fun _ => .ok ()) (fun _ => true) (fun s => .ok s)
      (fun _ b => b) fiConn
      ⟨⟨"driver", "Conn"⟩, [], [], [], "/w/in.go", "out.go", "realDC", "newConn"⟩
      (by rfl)⟩

/-! ## Top-level error reporting (main.go)

`silentFailure` is the sentinel error value; it is constructed in exactly one
place, the `flag.ErrHelp` branch of `parseFlagsAndEnvironment` — every other
error in the program is built by `fmt.Errorf`/`errors.New` and is a distinct
value, modeled `.msg`.  `flag.Parse`'s outcome and the rest of the pipeline
(`ensureValid`, `parseInput`, `resolveTypes`, `analyze`, emission, write) are
oracles.  `main` prints `ERROR: %v\n` to stderr unless the error is the
sentinel, and exits `1`; success exits `0`.  `mainModel` returns the stderr
lines and the exit code. -/

inductive FlagParseError where
  | errHelp
  | other (s : String)
deriving DecidableEq

inductive GoError where
  | silentFailure
  | msg (s : String)
deriving DecidableEq

def GoError.Error : GoError → String
  | .silentFailure => ""
  | .msg s => s

def parseFlagsAndEnvironment (parseResult : Option FlagParseError) : Except GoError Unit :=
  match parseResult with
  | some .errHelp => .error .silentFailure
  | some (.other e) => .error (.msg e)
  | none => .ok ()

def mainErr (parseResult : Option FlagParseError) (rest : Except String Unit) :
    Except GoError Unit :=
  match parseFlagsAndEnvironment parseResult with
  | .error e => .error e
  | .ok () =>
    match rest with
    | .error e => .error (.msg e)
    | .ok () => .ok ()

def printWithPrefix (pfx msg : String) : String := pfx ++ ": " ++ msg ++ "\n"

def mainModel (parseResult : Option FlagParseError) (rest : Except String Unit) :
    List String × Nat :=
  match mainErr parseResult rest with
  | .error e =>
    (if e = .silentFailure then [] else [printWithPrefix "ERROR" e.Error], 1)
  | .ok () => ([], 0)

/-- C9.  A help request makes flag parsing yield the silent-failure sentinel
and the process exit `1` with no diagnostic line at all (in particular no
`ERROR:`-prefixed one); any error arising when help was *not* requested is
never the sentinel, and it is reported as exactly one `ERROR: `-prefixed
stderr line with exit code `1`. -/
theorem silentFailure_reporting (parseResult : Option FlagParseError)
    (rest : Except String Unit) :
    (parseResult = some .errHelp →
      parseFlagsAndEnvironment parseResult = .error .silentFailure ∧
      mainModel parseResult rest = ([], 1)) ∧
    (parseResult ≠ some .errHelp →
      ∀ e, mainErr parseResult rest = .error e →
        e ≠ .silentFailure ∧
        mainModel parseResult rest = ([printWithPrefix "ERROR" e.Error], 1) ∧
        ∃ s, (mainModel parseResult rest).1 = ["ERROR: " ++ s ++ "\n"]) := by
  constructor
  · rintro rfl
    exact ⟨rfl, rfl⟩
  · intro hne e he
    rcases parseResult with _ | pf
    · rcases rest with e' | u
      · obtain rfl : GoError.msg e' = e := by simpa [mainErr, parseFlagsAndEnvironment] using he
        exact ⟨by simp, by simp [mainModel, mainErr, parseFlagsAndEnvironment],
          e', by simp [mainModel, mainErr, parseFlagsAndEnvironment, printWithPrefix, GoError.Error]⟩
      · exact absurd he (by simp [mainErr, parseFlagsAndEnvironment])
    · rcases pf with _ | s
      · exact absurd rfl hne
      · obtain rfl : GoError.msg s = e := by simpa [mainErr, parseFlagsAndEnvironment] using he
        exact ⟨by simp, by simp [mainModel, mainErr, parseFlagsAndEnvironment],
          s, by simp [mainModel, mainErr, parseFlagsAndEnvironment, printWithPrefix, GoError.Error]⟩

/-- Witness for C9: a help request, and a pipeline error `"boom"`. -/
theorem silentFailure_reporting_witness :
    (parseFlagsAndEnvironment (some .errHelp) = .error .silentFailure ∧
      mainModel (some .errHelp) (.ok ()) = ([], 1)) ∧
    (GoError.msg "boom" ≠ .silentFailure ∧
      mainModel none (.error "boom") = ([printWithPrefix "ERROR" (GoError.msg "boom").Error], 1) ∧
      ∃ s, (mainModel none (.error "boom")).1 = ["ERROR: " ++ s ++ "\n"]) :=
  ⟨(silentFailure_reporting (some .errHelp) (.ok ())).1 rfl,
    (silentFailure_reporting none (.error "boom")).2 (by simp) (.msg "boom") rfl⟩

end Wrappergen
